import Mathlib

/-!
Verification of the memqsim single-qubit simulator core.

The embedding mirrors `src/simulator/single_qubit.rs` and
`src/simulator/gates.rs`: a qubit state is a pair of complex amplitudes
(`Complex64` becomes `ℂ` with real components modelled as exact reals),
a gate matrix is a 2x2 array of complex numbers, and every gate builds
its matrix and delegates to `apply_gate`.
-/

namespace Memqsim

/-- Mirrors `Complex64::new(re, im)`. -/
def c64 (re im : ℝ) : ℂ := ⟨re, im⟩

/-- Mirrors `struct SingleQubit { alpha: Complex64, beta: Complex64 }`. -/
@[ext] structure SingleQubit where
  alpha : ℂ
  beta : ℂ

/-- Mirrors the `[[Complex64; 2]; 2]` gate matrix: row-major entries. -/
structure Mat2 where
  m00 : ℂ
  m01 : ℂ
  m10 : ℂ
  m11 : ℂ

namespace SingleQubit

/-- Mirrors `SingleQubit::new`: the |0⟩ state. -/
def new : SingleQubit :=
  { alpha := c64 1 0, beta := c64 0 0 }

/-- Mirrors `SingleQubit::new_one`: the |1⟩ state. -/
def new_one : SingleQubit :=
  { alpha := c64 0 0, beta := c64 1 0 }

/-- Mirrors `SingleQubit::normalize`: rescale by the root of
`alpha.norm_sqr() + beta.norm_sqr()` unless that root is ≤ 1e-10
(`Complex64::norm_sqr` is `Complex.normSq`; `/= norm` divides both
components by the real scalar, i.e. divides by `(norm : ℂ)`). -/
noncomputable def normalize (q : SingleQubit) : SingleQubit :=
  let norm := Real.sqrt (Complex.normSq q.alpha + Complex.normSq q.beta)
  if norm > 1e-10 then
    { alpha := q.alpha / (norm : ℂ), beta := q.beta / (norm : ℂ) }
  else
    q

/-- Mirrors `SingleQubit::from_amplitudes`: build then normalize. -/
noncomputable def from_amplitudes (alpha beta : ℂ) : SingleQubit :=
  normalize { alpha := alpha, beta := beta }

/-- Mirrors `SingleQubit::prob_zero`: `alpha.norm_sqr()`. -/
noncomputable def prob_zero (q : SingleQubit) : ℝ :=
  Complex.normSq q.alpha

/-- Mirrors `SingleQubit::prob_one`: `beta.norm_sqr()`. -/
noncomputable def prob_one (q : SingleQubit) : ℝ :=
  Complex.normSq q.beta

/-- Mirrors `SingleQubit::apply_gate`: both new amplitudes are computed
from the old pair, then both fields are overwritten. -/
def apply_gate (q : SingleQubit) (matrix : Mat2) : SingleQubit :=
  { alpha := matrix.m00 * q.alpha + matrix.m01 * q.beta,
    beta := matrix.m10 * q.alpha + matrix.m11 * q.beta }

/-- Mirrors `impl Default for SingleQubit`: delegates to `new`. -/
def default : SingleQubit := new

end SingleQubit

open SingleQubit

/-- Mirrors `const SQRT2_INV: f64 = 0.7071067811865476`. -/
def SQRT2_INV : ℝ := 0.7071067811865476

/-- Mirrors `x_gate`. -/
def x_gate (q : SingleQubit) : SingleQubit :=
  apply_gate q ⟨c64 0 0, c64 1 0, c64 1 0, c64 0 0⟩

/-- Mirrors `y_gate`. -/
def y_gate (q : SingleQubit) : SingleQubit :=
  apply_gate q ⟨c64 0 0, c64 0 (-1), c64 0 1, c64 0 0⟩

/-- Mirrors `z_gate`. -/
def z_gate (q : SingleQubit) : SingleQubit :=
  apply_gate q ⟨c64 1 0, c64 0 0, c64 0 0, c64 (-1) 0⟩

/-- Mirrors `h_gate`. -/
def h_gate (q : SingleQubit) : SingleQubit :=
  apply_gate q
    ⟨c64 SQRT2_INV 0, c64 SQRT2_INV 0, c64 SQRT2_INV 0, c64 (-SQRT2_INV) 0⟩

/-- Mirrors `rx_gate`: `cos = (theta/2).cos()`, `sin = (theta/2).sin()`. -/
noncomputable def rx_gate (q : SingleQubit) (theta : ℝ) : SingleQubit :=
  let c := Real.cos (theta / 2)
  let s := Real.sin (theta / 2)
  apply_gate q ⟨c64 c 0, c64 0 (-s), c64 0 (-s), c64 c 0⟩

/-- Mirrors `ry_gate`. -/
noncomputable def ry_gate (q : SingleQubit) (theta : ℝ) : SingleQubit :=
  let c := Real.cos (theta / 2)
  let s := Real.sin (theta / 2)
  apply_gate q ⟨c64 c 0, c64 (-s) 0, c64 s 0, c64 c 0⟩

/-- Mirrors `rz_gate`: diagonal of `Complex64::new(0, ∓theta/2).exp()`. -/
noncomputable def rz_gate (q : SingleQubit) (theta : ℝ) : SingleQubit :=
  let exp_neg := Complex.exp (c64 0 (-(theta / 2)))
  let exp_pos := Complex.exp (c64 0 (theta / 2))
  apply_gate q ⟨exp_neg, c64 0 0, c64 0 0, exp_pos⟩

/-- Mirrors `s_gate`: lower-right entry is `const I = Complex64::new(0,1)`. -/
def s_gate (q : SingleQubit) : SingleQubit :=
  apply_gate q ⟨c64 1 0, c64 0 0, c64 0 0, c64 0 1⟩

/-- Mirrors `t_gate`: lower-right entry is `Complex64::new(0, PI/4).exp()`. -/
noncomputable def t_gate (q : SingleQubit) : SingleQubit :=
  apply_gate q
    ⟨c64 1 0, c64 0 0, c64 0 0, Complex.exp (c64 0 (Real.pi / 4))⟩

/-- Total probability `prob_zero() + prob_one()` of a state. -/
noncomputable def probsum (q : SingleQubit) : ℝ :=
  prob_zero q + prob_one q

/-- The spec's normalization invariant: `|alpha|² + |beta|² = 1` within
floating-point tolerance 1e-10. -/
noncomputable def invariantEps (q : SingleQubit) : Prop :=
  |probsum q - 1| ≤ 1e-10

/-- Real part of a built complex number. -/
@[simp] lemma c64_re (a b : ℝ) : (c64 a b).re = a := rfl

/-- Imaginary part of a built complex number. -/
@[simp] lemma c64_im (a b : ℝ) : (c64 a b).im = b := rfl

/-- `normSq` of a built complex number. -/
lemma normSq_c64 (a b : ℝ) : Complex.normSq (c64 a b) = a * a + b * b :=
  Complex.normSq_mk a b

/-- The zero entry `Complex64::new(0,0)` is the complex zero. -/
@[simp] lemma c64_zero : c64 0 0 = 0 := by
  apply Complex.ext <;> simp

/-- The unit entry `Complex64::new(1,0)` is the complex one. -/
@[simp] lemma c64_one : c64 1 0 = 1 := by
  apply Complex.ext <;> simp

/-- `normSq` of a purely imaginary exponential is 1. -/
lemma normSq_exp_c64 (t : ℝ) : Complex.normSq (Complex.exp (c64 0 t)) = 1 := by
  rw [← Complex.sq_abs, Complex.abs_exp]
  norm_num

/-- `x_gate` swaps the two amplitudes. -/
lemma x_gate_swap (q : SingleQubit) : x_gate q = ⟨q.beta, q.alpha⟩ := by
  unfold x_gate apply_gate
  ext <;>
    simp [Complex.add_re, Complex.add_im, Complex.mul_re, Complex.mul_im]

/-- C2: `apply_gate` sets `alpha` to `m00*alpha + m01*beta` and `beta` to
`m10*alpha + m11*beta`, both computed from the old amplitude pair, so no
product uses a partially-updated amplitude. -/
theorem C2_apply_gate_from_old_pair (q : SingleQubit) (m : Mat2) :
    (apply_gate q m).alpha = m.m00 * q.alpha + m.m01 * q.beta ∧
    (apply_gate q m).beta = m.m10 * q.alpha + m.m11 * q.beta := by
  exact ⟨rfl, rfl⟩

/-- C8: `z_gate` applies the matrix [[1,0],[0,-1]]: it negates `beta`
and leaves `alpha` exactly unchanged. -/
theorem C8_z_gate_negates_beta (q : SingleQubit) :
    z_gate q = apply_gate q ⟨c64 1 0, c64 0 0, c64 0 0, c64 (-1) 0⟩ ∧
    (z_gate q).alpha = q.alpha ∧ (z_gate q).beta = -q.beta := by
  refine ⟨rfl, ?_, ?_⟩
  · show c64 1 0 * q.alpha + c64 0 0 * q.beta = q.alpha
    apply Complex.ext <;> simp [Complex.add_re, Complex.add_im, Complex.mul_re, Complex.mul_im]
  · show c64 0 0 * q.alpha + c64 (-1) 0 * q.beta = -q.beta
    apply Complex.ext <;>
      simp [Complex.add_re, Complex.add_im, Complex.mul_re, Complex.mul_im]

/-- C9: the `Default` implementation returns exactly the state built by
`new`: the |0⟩ state with `alpha = 1 + 0i` and `beta = 0 + 0i`. -/
theorem C9_default_is_new :
    SingleQubit.default = SingleQubit.new ∧
    SingleQubit.default.alpha = 1 ∧ SingleQubit.default.beta = 0 := by
  refine ⟨rfl, ?_, ?_⟩ <;> (apply Complex.ext <;> simp [SingleQubit.default, new])

/-- C10: for every state, also non-normalized or degenerate ones,
`prob_zero` is the squared magnitude of `alpha` (re² + im²) and `prob_one`
that of `beta`, so both are non-negative. -/
theorem C10_probabilities_nonneg (q : SingleQubit) :
    prob_zero q = q.alpha.re ^ 2 + q.alpha.im ^ 2 ∧
    prob_one q = q.beta.re ^ 2 + q.beta.im ^ 2 ∧
    0 ≤ prob_zero q ∧ 0 ≤ prob_one q := by
  refine ⟨?_, ?_, Complex.normSq_nonneg _, Complex.normSq_nonneg _⟩ <;>
    simp [prob_zero, prob_one, Complex.normSq_apply] <;> ring

/-- C5: for every angle, `rz_gate` leaves both measurement probabilities
unchanged: it only multiplies each amplitude by a unit-modulus phase. -/
theorem C5_rz_preserves_probabilities (q : SingleQubit) (theta : ℝ) :
    prob_zero (rz_gate q theta) = prob_zero q ∧
    prob_one (rz_gate q theta) = prob_one q := by
  constructor <;>
    simp [rz_gate, apply_gate, prob_zero, prob_one, Complex.normSq_mul,
      normSq_exp_c64]

/-- C6: applying `x_gate` twice returns any state to its original value,
so `prob_zero` and `prob_one` are unchanged. -/
theorem C6_x_gate_self_inverse (q : SingleQubit) :
    x_gate (x_gate q) = q ∧
    prob_zero (x_gate (x_gate q)) = prob_zero q ∧
    prob_one (x_gate (x_gate q)) = prob_one q := by
  have h : x_gate (x_gate q) = q := by
    rw [x_gate_swap, x_gate_swap]
  exact ⟨h, by rw [h], by rw [h]⟩

/-- `x_gate` preserves the total probability exactly. -/
lemma probsum_x (q : SingleQubit) : probsum (x_gate q) = probsum q := by
  simp [probsum, prob_zero, prob_one, x_gate, apply_gate, Complex.normSq_apply,
    Complex.add_re, Complex.add_im, Complex.mul_re, Complex.mul_im]
  ring

/-- `y_gate` preserves the total probability exactly. -/
lemma probsum_y (q : SingleQubit) : probsum (y_gate q) = probsum q := by
  simp [probsum, prob_zero, prob_one, y_gate, apply_gate, Complex.normSq_apply,
    Complex.add_re, Complex.add_im, Complex.mul_re, Complex.mul_im]
  ring

/-- `z_gate` preserves the total probability exactly. -/
lemma probsum_z (q : SingleQubit) : probsum (z_gate q) = probsum q := by
  simp [probsum, prob_zero, prob_one, z_gate, apply_gate, Complex.normSq_apply,
    Complex.add_re, Complex.add_im, Complex.mul_re, Complex.mul_im]

/-- `s_gate` preserves the total probability exactly. -/
lemma probsum_s (q : SingleQubit) : probsum (s_gate q) = probsum q := by
  simp [probsum, prob_zero, prob_one, s_gate, apply_gate, Complex.normSq_apply,
    Complex.add_re, Complex.add_im, Complex.mul_re, Complex.mul_im]
  ring

/-- `t_gate` preserves the total probability exactly. -/
lemma probsum_t (q : SingleQubit) : probsum (t_gate q) = probsum q := by
  simp [probsum, prob_zero, prob_one, t_gate, apply_gate, Complex.normSq_apply,
    Complex.add_re, Complex.add_im, Complex.mul_re, Complex.mul_im,
    Complex.exp_re, Complex.exp_im, Real.exp_zero]
  have h2 : Real.sqrt 2 ^ 2 = 2 := Real.sq_sqrt (by norm_num)
  linear_combination
    (q.beta.re * q.beta.re + q.beta.im * q.beta.im) / 2 * h2

/-- `rx_gate` preserves the total probability exactly. -/
lemma probsum_rx (q : SingleQubit) (theta : ℝ) :
    probsum (rx_gate q theta) = probsum q := by
  simp [probsum, prob_zero, prob_one, rx_gate, apply_gate, Complex.normSq_apply,
    Complex.add_re, Complex.add_im, Complex.mul_re, Complex.mul_im]
  linear_combination
    (q.alpha.re * q.alpha.re + q.alpha.im * q.alpha.im +
      q.beta.re * q.beta.re + q.beta.im * q.beta.im) *
      Real.sin_sq_add_cos_sq (theta / 2)

/-- `ry_gate` preserves the total probability exactly. -/
lemma probsum_ry (q : SingleQubit) (theta : ℝ) :
    probsum (ry_gate q theta) = probsum q := by
  simp [probsum, prob_zero, prob_one, ry_gate, apply_gate, Complex.normSq_apply,
    Complex.add_re, Complex.add_im, Complex.mul_re, Complex.mul_im]
  linear_combination
    (q.alpha.re * q.alpha.re + q.alpha.im * q.alpha.im +
      q.beta.re * q.beta.re + q.beta.im * q.beta.im) *
      Real.sin_sq_add_cos_sq (theta / 2)

/-- `rz_gate` preserves the total probability exactly. -/
lemma probsum_rz (q : SingleQubit) (theta : ℝ) :
    probsum (rz_gate q theta) = probsum q := by
  simp [probsum, prob_zero, prob_one, rz_gate, apply_gate, Complex.normSq_mul,
    normSq_exp_c64]

/-- `h_gate` scales the total probability by exactly `2 * SQRT2_INV²`. -/
lemma probsum_h (q : SingleQubit) :
    probsum (h_gate q) = 2 * SQRT2_INV ^ 2 * probsum q := by
  simp [probsum, prob_zero, prob_one, h_gate, apply_gate, Complex.normSq_apply,
    Complex.add_re, Complex.add_im, Complex.mul_re, Complex.mul_im]
  ring

/-- `new` has total probability exactly 1. -/
lemma probsum_new : probsum SingleQubit.new = 1 := by
  simp [probsum, prob_zero, prob_one, SingleQubit.new]

/-- `new_one` has total probability exactly 1. -/
lemma probsum_new_one : probsum SingleQubit.new_one = 1 := by
  simp [probsum, prob_zero, prob_one, SingleQubit.new_one]

/-- `from_amplitudes` has total probability exactly 1 when the input norm
clears the 1e-10 guard. -/
lemma probsum_from_amplitudes (a b : ℂ)
    (hab : 1e-10 < Real.sqrt (Complex.normSq a + Complex.normSq b)) :
    probsum (from_amplitudes a b) = 1 := by
  have hpos : 0 < Complex.normSq a + Complex.normSq b :=
    Real.sqrt_pos.mp (lt_trans (by norm_num) hab)
  unfold from_amplitudes SingleQubit.normalize
  simp only [gt_iff_lt]
  rw [if_pos hab]
  simp only [probsum, prob_zero, prob_one, Complex.normSq_div,
    Complex.normSq_ofReal, Real.mul_self_sqrt hpos.le]
  rw [div_add_div_same, div_self hpos.ne']

/-- A state sitting just inside the 1e-10 tolerance band, on which
`h_gate` pushes the total probability outside the band. -/
noncomputable def qedge : SingleQubit :=
  { alpha := c64 (Real.sqrt (1 + 1e-10 - 1e-17)) 0, beta := c64 0 0 }

/-- The total probability of the edge state. -/
lemma probsum_qedge : probsum qedge = 1 + 1e-10 - 1e-17 := by
  have hc : Real.sqrt (1 + 1e-10 - 1e-17) * Real.sqrt (1 + 1e-10 - 1e-17)
      = 1 + 1e-10 - 1e-17 := Real.mul_self_sqrt (by norm_num)
  simp only [probsum, prob_zero, prob_one, qedge, normSq_c64, hc]
  norm_num

/-- C1 (counterexample): the state `qedge` satisfies the 1e-10
normalization invariant, yet after `h_gate` — whose matrix uses the
double-precision constant `SQRT2_INV = 0.7071067811865476`, whose square
doubled exceeds 1 — the invariant no longer holds within 1e-10. -/
theorem C1_counterexample :
    invariantEps qedge ∧ ¬ invariantEps (h_gate qedge) := by
  constructor
  · rw [invariantEps, probsum_qedge, abs_le]
    constructor <;> norm_num
  · rw [invariantEps, not_le, probsum_h, probsum_qedge]
    refine lt_of_lt_of_le ?_ (le_abs_self _)
    norm_num [SQRT2_INV]

/-- C1 (amended): from any state satisfying the 1e-10 normalization
invariant, the gates X, Y, Z, S, T, RX, RY and RZ preserve the total
probability exactly (hence the invariant); `h_gate` scales it by exactly
`2 * SQRT2_INV^2` and therefore keeps it within the slightly larger
tolerance 1.001e-10; the invariant holds exactly after `new`, `new_one`,
and after `from_amplitudes` on non-degenerate input. -/
theorem C1_gates_preserve_invariant (q : SingleQubit) (theta : ℝ) (a b : ℂ)
    (hq : invariantEps q)
    (hab : 1e-10 < Real.sqrt (Complex.normSq a + Complex.normSq b)) :
    invariantEps (x_gate q) ∧ invariantEps (y_gate q) ∧
    invariantEps (z_gate q) ∧ invariantEps (s_gate q) ∧
    invariantEps (t_gate q) ∧ invariantEps (rx_gate q theta) ∧
    invariantEps (ry_gate q theta) ∧ invariantEps (rz_gate q theta) ∧
    probsum (h_gate q) = 2 * SQRT2_INV ^ 2 * probsum q ∧
    |probsum (h_gate q) - 1| ≤ 1.001e-10 ∧
    probsum SingleQubit.new = 1 ∧ probsum SingleQubit.new_one = 1 ∧
    probsum (from_amplitudes a b) = 1 := by
  have hsum : 0 ≤ probsum q :=
    add_nonneg (Complex.normSq_nonneg _) (Complex.normSq_nonneg _)
  have hq' : -(1e-10) ≤ probsum q - 1 ∧ probsum q - 1 ≤ 1e-10 :=
    abs_le.mp hq
  have hs1 : 1 ≤ 2 * SQRT2_INV ^ 2 := by norm_num [SQRT2_INV]
  have hs2 : 2 * SQRT2_INV ^ 2 ≤ 1 + 3e-16 := by norm_num [SQRT2_INV]
  refine ⟨?_, ?_, ?_, ?_, ?_, ?_, ?_, ?_, probsum_h q, ?_, probsum_new,
    probsum_new_one, probsum_from_amplitudes a b hab⟩
  · rw [invariantEps, probsum_x]; exact hq
  · rw [invariantEps, probsum_y]; exact hq
  · rw [invariantEps, probsum_z]; exact hq
  · rw [invariantEps, probsum_s]; exact hq
  · rw [invariantEps, probsum_t]; exact hq
  · rw [invariantEps, probsum_rx]; exact hq
  · rw [invariantEps, probsum_ry]; exact hq
  · rw [invariantEps, probsum_rz]; exact hq
  · rw [probsum_h, abs_le]
    constructor <;> nlinarith [hq'.1, hq'.2]

/-- C1 (witness): the amended theorem instantiated at `new`, angle 0,
and the 3-4-5 amplitudes. -/
theorem C1_gates_preserve_invariant_witness :
    invariantEps (x_gate SingleQubit.new) ∧
    invariantEps (y_gate SingleQubit.new) ∧
    invariantEps (z_gate SingleQubit.new) ∧
    invariantEps (s_gate SingleQubit.new) ∧
    invariantEps (t_gate SingleQubit.new) ∧
    invariantEps (rx_gate SingleQubit.new 0) ∧
    invariantEps (ry_gate SingleQubit.new 0) ∧
    invariantEps (rz_gate SingleQubit.new 0) ∧
    probsum (h_gate SingleQubit.new)
      = 2 * SQRT2_INV ^ 2 * probsum SingleQubit.new ∧
    |probsum (h_gate SingleQubit.new) - 1| ≤ 1.001e-10 ∧
    probsum SingleQubit.new = 1 ∧ probsum SingleQubit.new_one = 1 ∧
    probsum (from_amplitudes (c64 3 0) (c64 4 0)) = 1 := by
  refine C1_gates_preserve_invariant SingleQubit.new 0 (c64 3 0) (c64 4 0) ?_ ?_
  · rw [invariantEps, probsum_new]
    norm_num
  · have h25 : Complex.normSq (c64 3 0) + Complex.normSq (c64 4 0) = 25 := by
      simp only [normSq_c64]
      norm_num
    rw [h25, show (25 : ℝ) = 5 ^ 2 by norm_num, Real.sqrt_sq (by norm_num)]
    norm_num

/-- When the norm clears the guard, `normalize` divides both amplitudes
by the norm. -/
lemma normalize_pos (q : SingleQubit)
    (h : 1e-10 < Real.sqrt (Complex.normSq q.alpha + Complex.normSq q.beta)) :
    SingleQubit.normalize q =
      { alpha := q.alpha /
          ((Real.sqrt (Complex.normSq q.alpha + Complex.normSq q.beta) : ℝ) : ℂ),
        beta := q.beta /
          ((Real.sqrt (Complex.normSq q.alpha + Complex.normSq q.beta) : ℝ) : ℂ) } := by
  unfold SingleQubit.normalize
  simp only [gt_iff_lt]
  rw [if_pos h]

/-- The 3-4-5 norm evaluates to 5. -/
lemma sqrt_norm_345 :
    Real.sqrt (Complex.normSq (c64 3 0) + Complex.normSq (c64 4 0)) = 5 := by
  have h25 : Complex.normSq (c64 3 0) + Complex.normSq (c64 4 0) = 25 := by
    simp only [normSq_c64]
    norm_num
  rw [h25, show (25 : ℝ) = 5 ^ 2 by norm_num, Real.sqrt_sq (by norm_num)]

/-- C3: for non-degenerate input, `from_amplitudes` rescales both
amplitudes by 1/norm, the resulting total probability is exactly 1, and
the 3-4-5 inputs give probabilities 9/25 and 16/25. -/
theorem C3_from_amplitudes_normalizes (a b : ℂ)
    (hab : 1e-10 < Real.sqrt (Complex.normSq a + Complex.normSq b)) :
    (from_amplitudes a b).alpha =
      a / ((Real.sqrt (Complex.normSq a + Complex.normSq b) : ℝ) : ℂ) ∧
    (from_amplitudes a b).beta =
      b / ((Real.sqrt (Complex.normSq a + Complex.normSq b) : ℝ) : ℂ) ∧
    prob_zero (from_amplitudes a b) + prob_one (from_amplitudes a b) = 1 ∧
    prob_zero (from_amplitudes (c64 3 0) (c64 4 0)) = 9 / 25 ∧
    prob_one (from_amplitudes (c64 3 0) (c64 4 0)) = 16 / 25 := by
  have hab2 : 1e-10 <
      Real.sqrt (Complex.normSq (c64 3 0) + Complex.normSq (c64 4 0)) := by
    rw [sqrt_norm_345]
    norm_num
  have hfa := normalize_pos { alpha := a, beta := b } hab
  have hfa2 := normalize_pos { alpha := c64 3 0, beta := c64 4 0 } hab2
  refine ⟨?_, ?_, probsum_from_amplitudes a b hab, ?_, ?_⟩
  · rw [from_amplitudes, hfa]
  · rw [from_amplitudes, hfa]
  · rw [prob_zero, from_amplitudes, hfa2, sqrt_norm_345]
    simp only [Complex.normSq_div, Complex.normSq_ofReal, normSq_c64]
    norm_num
  · rw [prob_one, from_amplitudes, hfa2, sqrt_norm_345]
    simp only [Complex.normSq_div, Complex.normSq_ofReal, normSq_c64]
    norm_num

/-- C3 (witness): the theorem at the 3-4-5 amplitudes. -/
theorem C3_from_amplitudes_normalizes_witness :
    (from_amplitudes (c64 3 0) (c64 4 0)).alpha =
      (c64 3 0) /
        ((Real.sqrt (Complex.normSq (c64 3 0) + Complex.normSq (c64 4 0)) : ℝ) : ℂ) ∧
    (from_amplitudes (c64 3 0) (c64 4 0)).beta =
      (c64 4 0) /
        ((Real.sqrt (Complex.normSq (c64 3 0) + Complex.normSq (c64 4 0)) : ℝ) : ℂ) ∧
    prob_zero (from_amplitudes (c64 3 0) (c64 4 0)) +
      prob_one (from_amplitudes (c64 3 0) (c64 4 0)) = 1 ∧
    prob_zero (from_amplitudes (c64 3 0) (c64 4 0)) = 9 / 25 ∧
    prob_one (from_amplitudes (c64 3 0) (c64 4 0)) = 16 / 25 := by
  refine C3_from_amplitudes_normalizes (c64 3 0) (c64 4 0) ?_
  rw [sqrt_norm_345]
  norm_num

/-- C4: when the norm is at most 1e-10, `normalize` leaves both
amplitudes exactly unchanged and `from_amplitudes` returns the raw
inputs as-is. -/
theorem C4_degenerate_guard_noop (q : SingleQubit) (a b : ℂ)
    (hq : Real.sqrt (Complex.normSq q.alpha + Complex.normSq q.beta) ≤ 1e-10)
    (hab : Real.sqrt (Complex.normSq a + Complex.normSq b) ≤ 1e-10) :
    SingleQubit.normalize q = q ∧
    from_amplitudes a b = { alpha := a, beta := b } := by
  constructor
  · unfold SingleQubit.normalize
    simp only [gt_iff_lt]
    rw [if_neg (not_lt.mpr hq)]
  · unfold from_amplitudes SingleQubit.normalize
    simp only [gt_iff_lt]
    rw [if_neg (not_lt.mpr hab)]

/-- C4 (witness): the theorem at the zero amplitude pair. -/
theorem C4_degenerate_guard_noop_witness :
    SingleQubit.normalize { alpha := 0, beta := 0 } =
      ({ alpha := 0, beta := 0 } : SingleQubit) ∧
    from_amplitudes 0 0 = ({ alpha := 0, beta := 0 } : SingleQubit) := by
  refine C4_degenerate_guard_noop { alpha := 0, beta := 0 } 0 0 ?_ ?_ <;>
    · simp only [Complex.normSq_zero, add_zero, Real.sqrt_zero]
      norm_num

/-- C7: applying H, X, Y and then the exact reverse Y, X, H to |0⟩
returns the state to `prob_zero ≈ 1` and `prob_one ≈ 0` within 1e-10. -/
theorem C7_sequence_reversible :
    |prob_zero (h_gate (x_gate (y_gate (y_gate (x_gate
        (h_gate SingleQubit.new)))))) - 1| ≤ 1e-10 ∧
    |prob_one (h_gate (x_gate (y_gate (y_gate (x_gate
        (h_gate SingleQubit.new))))))| ≤ 1e-10 := by
  have e1 : prob_zero (h_gate (x_gate (y_gate (y_gate (x_gate
      (h_gate SingleQubit.new)))))) = 4 * SQRT2_INV ^ 4 := by
    simp [h_gate, x_gate, y_gate, apply_gate, SingleQubit.new, prob_zero,
      Complex.normSq_apply, Complex.add_re, Complex.add_im, Complex.mul_re,
      Complex.mul_im]
    ring
  have e2 : prob_one (h_gate (x_gate (y_gate (y_gate (x_gate
      (h_gate SingleQubit.new)))))) = 0 := by
    simp [h_gate, x_gate, y_gate, apply_gate, SingleQubit.new, prob_one,
      Complex.normSq_apply, Complex.add_re, Complex.add_im, Complex.mul_re,
      Complex.mul_im]
  rw [e1, e2]
  constructor
  · rw [abs_le]
    constructor <;> norm_num [SQRT2_INV]
  · norm_num

end Memqsim
